import Mathlib

/-!
Verification development for the `simplemma` lemmatization library.

The development shallowly embeds the code of `src/simplemma/simplemma.py`
and `src/simplemma/langdetect.py`:

* tokens and table entries are `List Char` (Python `str`),
* Python dictionaries become association lists looked up with `dictGet`,
* code that can raise a Python exception returns `Except`,
* score arithmetic of the language detector is carried out in `ℚ`
  (Python performs true division on small integer counts),
* the per-character case/digit/letter classifiers of Python are modelled
  by Lean's `Char.toLower`, `Char.toUpper`, `Char.isUpper`, `Char.isDigit`,
  `Char.isAlpha`,
* the suffix-rule fallback `apply_rules` (imported from a module that is
  not part of the sources) is an explicit function parameter `rules`.
-/

/-! ## Definitions: shallow embedding of `simplemma.py` and `langdetect.py` -/

/-- Python strings are modelled as lists of characters. -/
abbrev Str : Type := List Char

/-- A Python `dict` mapping word forms to lemmas, as an association list. -/
abbrev Table : Type := List (Str × Str)

/-- Exceptions that the embedded code can raise. -/
inductive PyErr : Type where
  | indexError : PyErr
  | valueError : PyErr
  | zeroDivisionError : PyErr
deriving DecidableEq, Repr

/-- Equality of `Except` results is decidable (needed to evaluate the
model on concrete inputs). -/
instance exceptDecEq {e a : Type} [DecidableEq e] [DecidableEq a] :
    DecidableEq (Except e a)
  | .error x, .error y =>
      if h : x = y then .isTrue (by rw [h])
      else .isFalse (by intro hc; cases hc; exact h rfl)
  | .error _, .ok _ => .isFalse (by intro hc; cases hc)
  | .ok _, .error _ => .isFalse (by intro hc; cases hc)
  | .ok x, .ok y =>
      if h : x = y then .isTrue (by rw [h])
      else .isFalse (by intro hc; cases hc; exact h rfl)

/-- Model of `dict.get(key)`: first binding of `key` in the association list. -/
def dictGet : Table → Str → Option Str
  | [], _ => none
  | (k, v) :: rest, key => if k = key then some v else dictGet rest key

/-- Python `str.lower()` (per-character lowercasing). -/
def pyLower (s : Str) : Str := s.map Char.toLower

/-- Python `str.capitalize()`: first character uppercased, rest lowercased. -/
def pyCapitalize : Str → Str
  | [] => []
  | c :: cs => Char.toUpper c :: cs.map Char.toLower

/-- Python `s[0]`, raising `IndexError` on the empty string. -/
def pyHead : Str → Except PyErr Char
  | [] => .error .indexError
  | c :: _ => .ok c

/-- Python `str.isnumeric()` restricted to decimal digits: nonempty and
all characters numeric. -/
def pyIsNumeric (s : Str) : Bool := !s.isEmpty && s.all Char.isDigit

/-- Constant `LANGLIST` from `simplemma.py`: the supported language codes. -/
def LANGLIST : List String :=
  ["bg", "ca", "cs", "cy", "da", "de", "el", "en", "es", "et", "fa", "fi",
   "fr", "ga", "gd", "gl", "gv", "hu", "hy", "id", "it", "ka", "la", "lb",
   "lt", "lv", "mk", "nb", "nl", "pl", "pt", "ro", "ru", "sk", "sl", "sv",
   "tr", "uk"]

/-- Constant `AFFIXLEN` from `simplemma.py`. -/
def AFFIXLEN : Nat := 2

/-- Constant `LONGAFFIXLEN` from `simplemma.py`. -/
def LONGAFFIXLEN : Nat := 5

/-- Constant `MINCOMPLEN` from `simplemma.py`. -/
def MINCOMPLEN : Nat := 4

/-- Constant `BETTER_LOWER` from `simplemma.py`: languages whose silent-mode default
is the lowercased token. -/
def BETTER_LOWER : List String := ["bg", "es", "hy", "lt", "lv", "pt", "sk"]

/-- Constant `LONGER_AFFIXES` from `simplemma.py`. -/
def LONGER_AFFIXES : List String := ["et", "fi", "hu", "hy", "lt", "ru"]

/-- Inner loop of `_levenshtein_dist`: given the previous row (`diag :: up
:: rest`) and the cell to the left, produce the new cells `r2[1..]`.  The
nested comparisons of the Python code compute `1 + min` of the three
neighbour cells. -/
def rowAux (c1 : Char) : List Char → List Nat → Nat → List Nat
  | c2 :: cs, diag :: up :: rest, left =>
      let cell := if c1 = c2 then diag else 1 + min left (min diag up)
      cell :: rowAux c1 cs (up :: rest) cell
  | _, _, _ => []

/-- Outer loop of `_levenshtein_dist`: fold over `str1`, producing the final
row `r1`.  `i` is the row index (`r2[0] = i + 1`). -/
def dpLoop : List Char → List Char → List Nat → Nat → List Nat
  | [], _, r1, _ => r1
  | c1 :: cs, str2, r1, i => dpLoop cs str2 ((i + 1) :: rowAux c1 str2 r1 (i + 1)) (i + 1)

/-- Model of `_levenshtein_dist(str1, str2)`. -/
def levenshteinDist (s1 s2 : Str) : Nat :=
  if s1 = s2 then 0
  else
    let p := if s1.length > s2.length then (s2, s1) else (s1, s2)
    (dpLoop p.1 p.2 (List.range (p.2.length + 1)) 0).getLastD 0

/-- The canonical recursive Levenshtein distance with unit-cost single
character insertion, deletion and substitution (reference definition for
the correctness statement about `levenshteinDist`). -/
def levRec : Str → Str → Nat
  | [], ys => ys.length
  | x :: xs, [] => (x :: xs).length
  | x :: xs, y :: ys =>
      if x = y then levRec xs ys
      else 1 + min (levRec xs ys) (min (levRec (x :: xs) ys) (levRec xs (y :: ys)))
termination_by xs ys => xs.length + ys.length
decreasing_by all_goals simp_arith

/-- A single-character edit: insertion, deletion or substitution at an
arbitrary position. -/
inductive EditStep : Str → Str → Prop where
  | ins (u v : Str) (c : Char) : EditStep (u ++ v) (u ++ c :: v)
  | del (u v : Str) (c : Char) : EditStep (u ++ c :: v) (u ++ v)
  | sub (u v : Str) (c d : Char) : EditStep (u ++ c :: v) (u ++ d :: v)

/-- Relation `EditChain n a b`: `b` is reachable from `a` by exactly `n` single
character edits. -/
inductive EditChain : Nat → Str → Str → Prop where
  | refl (a : Str) : EditChain 0 a a
  | step {n : Nat} {a b c : Str} : EditStep a b → EditChain n b c → EditChain (n + 1) a c

/-- The reversed prefixes of `ys` prefixed onto `acc`, in order of growing
length (the table column headers of the dynamic program). -/
def prefRevs : Str → Str → List Str
  | acc, [] => [acc]
  | acc, y :: ys => acc :: prefRevs (y :: acc) ys

/-- Model of `_simple_search(token, datadict, initial=False)`. -/
def simpleSearch (datadict : Table) (initial : Bool) (token : Str) :
    Except PyErr (Option Str) :=
  let token := if initial = true then pyLower token else token
  match dictGet datadict token with
  | some candidate => .ok (some candidate)
  | none =>
      match pyHead token with
      | .error e => .error e
      | .ok c =>
          if c.isUpper then .ok (dictGet datadict (pyLower token))
          else .ok (dictGet datadict (pyCapitalize token))

/-- The `while` loop of `_greedy_search`, also returning the final hop
counter `i`. -/
def greedyLoop (datadict : Table) (steps distance : Nat) (candidate : Str)
    (i : Nat) : Str × Nat :=
  match dictGet datadict candidate with
  | none => (candidate, i)
  | some next =>
      if hlt : next.length < candidate.length ∧
          levenshteinDist next candidate ≤ distance then
        if i + 1 ≥ steps then (next, i + 1)
        else greedyLoop datadict steps distance next (i + 1)
      else (candidate, i)
termination_by candidate.length
decreasing_by exact hlt.1

/-- Model of `_greedy_search(candidate, datadict, steps=1, distance=5)`. -/
def greedySearch (datadict : Table) (steps distance : Nat) (candidate : Str) : Str :=
  (greedyLoop datadict steps distance candidate 0).1

/-- One iteration of the `_decompose` loop at split point `count`:
`.ok none` means the loop continues with the next `count`, while
`.ok (some (candidate, plan_b))` means the loop breaks with those values
(assignments to `candidate` and `plan_b` happen only in iterations that
`break`). -/
def decomposeStep (datadict : Table) (affixlen : Nat) (token : Str) (count : Nat) :
    Except PyErr (Option (Option Str × Option Str)) :=
  let part1 := token.take (token.length - count)
  let part2 := token.drop (token.length - count)
  match simpleSearch datadict false part1 with
  | .error e => .error e
  | .ok none => .ok none
  | .ok (some lempart1) =>
      if count ≤ affixlen then .ok (some (some lempart1, none))
      else
        match pyHead token with
        | .error e => .error e
        | .ok c0 =>
            let part2 := if c0.isUpper then pyCapitalize part2 else part2
            match simpleSearch datadict false part2 with
            | .error e => .error e
            | .ok none => .ok none
            | .ok (some lempart2) =>
                match pyHead lempart2 with
                | .error e => .error e
                | .ok l0 =>
                    let substitute :=
                      if l0.isUpper then pyLower part2 else pyCapitalize part2
                    let newcandidate := greedySearch datadict 1 5 substitute
                    if newcandidate ≠ [] ∧ newcandidate.length < part2.length then
                      .ok (some (some (part1 ++ pyLower newcandidate), none))
                    else
                      match simpleSearch datadict false part2 with
                      | .error e => .error e
                      | .ok (some s) =>
                          if s ≠ [] ∧ s.length ≤ part2.length then
                            .ok (some (some (part1 ++ pyLower s), none))
                          else if lempart2.length < part2.length + affixlen then
                            .ok (some (none, some (part1 ++ pyLower lempart2)))
                          else .ok (some (none, none))
                      | .ok none =>
                          if lempart2.length < part2.length + affixlen then
                            .ok (some (none, some (part1 ++ pyLower lempart2)))
                          else .ok (some (none, none))

/-- The `for count in range(1, len(token)-MINCOMPLEN+1)` loop of
`_decompose`. -/
def decomposeLoop (datadict : Table) (affixlen : Nat) (token : Str) :
    List Nat → Except PyErr (Option Str × Option Str)
  | [] => .ok (none, none)
  | count :: rest =>
      match decomposeStep datadict affixlen token count with
      | .error e => .error e
      | .ok (some result) => .ok result
      | .ok none => decomposeLoop datadict affixlen token rest

/-- Model of `_decompose(token, datadict, affixlen=0)`. -/
def decompose (datadict : Table) (affixlen : Nat) (token : Str) :
    Except PyErr (Option Str × Option Str) :=
  decomposeLoop datadict affixlen token (List.range' 1 (token.length - MINCOMPLEN))

/-- The loop of `_affix_search` over decreasing affix lengths.  The list is
nonempty at every call site (`maxlen ≥ 2`), matching the Python loop
variables always being bound; `plan_b` is rebound at every iteration, so
only the breaking (or last) iteration's value survives. -/
def affixLoop (datadict : Table) (wordform : Str) :
    List Nat → Except PyErr (Option Str × Option Str)
  | [] => .ok (none, none)
  | [len] => decompose datadict len wordform
  | len :: rest =>
      match decompose datadict len wordform with
      | .error e => .error e
      | .ok (some c, pb) => .ok (some c, pb)
      | .ok (none, _) => affixLoop datadict wordform rest

/-- Model of `_affix_search(wordform, datadict, maxlen=AFFIXLEN)`. -/
def affixSearch (datadict : Table) (maxlen : Nat) (wordform : Str) :
    Except PyErr (Option Str) :=
  match affixLoop datadict wordform (List.range' 2 (maxlen - 1)).reverse with
  | .error e => .error e
  | .ok (some c, _) => .ok (some c)
  | .ok (none, pb) => .ok pb

/-- The loop of `_suffix_search`, carrying `(lastpart, lastcount)` as
`acc` (`none` while `lastcount == 0`). -/
def suffixLoop (datadict : Table) (token : Str) :
    List Nat → Option (Str × Nat) → Except PyErr (Option (Str × Nat))
  | [], acc => .ok acc
  | count :: rest, acc =>
      let piece := token.drop (token.length - count)
      match simpleSearch datadict false (pyCapitalize piece) with
      | .error e => .error e
      | .ok (some part) =>
          if part.length ≤ piece.length then
            suffixLoop datadict token rest (some (part, count))
          else suffixLoop datadict token rest acc
      | .ok none => suffixLoop datadict token rest acc

/-- Model of `_suffix_search(token, datadict)`. -/
def suffixSearch (datadict : Table) (token : Str) : Except PyErr (Option Str) :=
  match suffixLoop datadict token
      (List.range' MINCOMPLEN (token.length - MINCOMPLEN + 1 - MINCOMPLEN)) none with
  | .error e => .error e
  | .ok (some (lastpart, lastcount)) =>
      .ok (some (token.take (token.length - lastcount) ++ pyLower lastpart))
  | .ok none => .ok none

/-- Test `'-' in token or '_' in token`. -/
def hasHyphen (token : Str) : Bool :=
  token.any (fun c => decide (c = '-' ∨ c = '_'))

/-- Model of `re.split(r'([_-])', token)`: alternating pieces and single-character
separators, with empty pieces kept. -/
def hyphenSplit : Str → List Str
  | [] => [[]]
  | c :: cs =>
      if c = '-' ∨ c = '_' then
        [] :: [c] :: hyphenSplit cs
      else
        match hyphenSplit cs with
        | [] => [[c]]
        | piece :: rest => (c :: piece) :: rest

/-- Model of `_dehyphen(token, datadict, greedy)`.  The two ways of obtaining
`subcandidate` for the final segment (plain `_simple_search`, then
`_affix_search` when greedy) both recombine by replacing `splitted[-1]`
and joining. -/
def dehyphen (datadict : Table) (greedy : Bool) (token : Str) :
    Except PyErr (Option Str) :=
  if hasHyphen token = false then .ok none
  else
    let splitted := hyphenSplit token
    if splitted.length > 1 ∧ (splitted.getLastD []).length > 0 then
      let sub0 :=
        ((splitted.filter (fun t => !(decide (t = ['-'] ∨ t = ['_'])))).map pyLower).flatten
      match pyHead token with
      | .error e => .error e
      | .ok c0 =>
          let subcandidate := if c0.isUpper then pyCapitalize sub0 else sub0
          match dictGet datadict subcandidate with
          | some v => .ok (some v)
          | none =>
              match simpleSearch datadict false (splitted.getLastD []) with
              | .error e => .error e
              | .ok (some s) => .ok (some (splitted.dropLast ++ [s]).flatten)
              | .ok none =>
                  if greedy = true then
                    match affixSearch datadict AFFIXLEN (splitted.getLastD []) with
                    | .error e => .error e
                    | .ok (some s) => .ok (some (splitted.dropLast ++ [s]).flatten)
                    | .ok none => .ok none
                  else .ok none
    else .ok none

/-- Lines 340-357 of `_return_lemma`: stop for short tokens or non-greedy
mode, otherwise run the affix/suffix searches (no candidate) or one extra
bounded greedy hop (candidate found). -/
def returnLemmaTail (datadict : Table) (greedy : Bool) (lang : String)
    (token : Str) (candidate : Option Str) : Except PyErr (Option Str) :=
  if token.length ≤ 8 ∨ greedy = false then .ok candidate
  else
    match candidate with
    | none =>
        let maxlen := if lang ∈ LONGER_AFFIXES then LONGAFFIXLEN else AFFIXLEN
        match affixSearch datadict maxlen token with
        | .error e => .error e
        | .ok (some c) => .ok (some c)
        | .ok none => suffixSearch datadict token
    | some c => .ok (some (greedySearch datadict 1 5 c))

/-- Lines 336-339 of `_return_lemma`: a found candidate is itself passed
through `_dehyphen`, keeping the original candidate when that returns
nothing; then the tail. -/
def returnLemmaCand (datadict : Table) (greedy : Bool) (lang : String)
    (token : Str) (c : Str) : Except PyErr (Option Str) :=
  match dehyphen datadict greedy c with
  | .error e => .error e
  | .ok (some nc) => returnLemmaTail datadict greedy lang token (some nc)
  | .ok none => returnLemmaTail datadict greedy lang token (some c)

/-- Model of `_return_lemma(token, datadict, greedy, lang, initial)`.  The suffix
rule fallback `apply_rules` (imported from an external module) is the
function parameter `rules`. -/
def returnLemma (rules : Str → String → Option Str) (datadict : Table)
    (greedy : Bool) (lang : String) (initial : Bool) (token : Str) :
    Except PyErr (Option Str) :=
  if pyIsNumeric token = true then .ok (some token)
  else
    match simpleSearch datadict initial token with
    | .error e => .error e
    | .ok (some c) => returnLemmaCand datadict greedy lang token c
    | .ok none =>
        match rules token lang with
        | some c => returnLemmaCand datadict greedy lang token c
        | none =>
            match dehyphen datadict greedy token with
            | .error e => .error e
            | .ok cand2 => returnLemmaTail datadict greedy lang token cand2

/-- Model of `_load_data(langs)`: keep the supported languages in order, pairing
each with its dictionary.  The dictionary contents (`_load_pickle`, an
external on-disk artefact) are the parameter `loadDict`. -/
def loadLangData (loadDict : String → Table) (langs : List String) :
    List (String × Table) :=
  langs.filterMap (fun l => if l ∈ LANGLIST then some (l, loadDict l) else none)

/-- The `for i, l in enumerate(LANG_DATA, start=1)` loop of `lemmatize`. -/
def lemmaLoop (rules : Str → String → Option Str) (greedy initial : Bool)
    (token : Str) : List (String × Table) → Except PyErr (Option Str)
  | [] => .ok none
  | (code, d) :: rest =>
      match returnLemma rules d greedy code initial token with
      | .error e => .error e
      | .ok (some c) => .ok (some c)
      | .ok none => lemmaLoop rules greedy initial token rest

/-- Model of `lemmatize(token, lang, greedy=False, silent=True, initial=False)`:
try every loaded language in order; on full miss raise `ValueError` when
not silent, otherwise fall back to the (lowercased, for `lang[0]` in
`BETTER_LOWER`) original token — `lang[0]` raises `IndexError` on an empty
configuration. -/
def lemmatizeM (rules : Str → String → Option Str) (loadDict : String → Table)
    (langs : List String) (token : Str) (greedy silent initial : Bool) :
    Except PyErr Str :=
  match lemmaLoop rules greedy initial token (loadLangData loadDict langs) with
  | .error e => .error e
  | .ok (some c) => .ok c
  | .ok none =>
      if silent = false then .error .valueError
      else
        match langs with
        | [] => .error .indexError
        | l0 :: _ => .ok (if l0 ∈ BETTER_LOWER then pyLower token else token)

/-- The tokenization of `SPLIT_INPUT` (`[^\W\d_]{3,}`): maximal runs of
letters; the accumulator holds the current run reversed. -/
def letterRunsAux : List Char → Str → List Str
  | [], cur => if cur = [] then [] else [cur.reverse]
  | c :: cs, cur =>
      if c.isAlpha then letterRunsAux cs (c :: cur)
      else if cur = [] then letterRunsAux cs []
      else cur.reverse :: letterRunsAux cs []

/-- All maximal letter runs of length at least 3 (the matches of
`SPLIT_INPUT.finditer`). -/
def letterRuns (text : Str) : List Str :=
  (letterRunsAux text []).filter (fun r => 3 ≤ r.length)

/-- One `Counter` update: increment the count of `t`, keys kept in
first-occurrence order. -/
def bump : List (Str × Nat) → Str → List (Str × Nat)
  | [], t => [(t, 1)]
  | (k, n) :: rest, t =>
      if k = t then (k, n + 1) :: rest else (k, n) :: bump rest t

/-- Model of `Counter(...)`: occurrence counts with keys in first-occurrence
order. -/
def tally (ts : List Str) : List (Str × Nat) := ts.foldl bump []

/-- Model of `Counter.most_common(n)`: keys ordered by count descending (stable),
truncated to `n`. -/
def mostCommon (n : Nat) (counts : List (Str × Nat)) : List Str :=
  ((counts.insertionSort (fun a b => b.2 ≤ a.2)).map Prod.fst).take n

/-- Model of `prepare_text(text)`. -/
def prepareText (text : Str) : List Str :=
  mostCommon 1000 (tally (letterRuns text))

/-- Python true division, raising `ZeroDivisionError`. -/
def pyDiv (a b : ℚ) : Except PyErr ℚ :=
  if b = 0 then .error .zeroDivisionError else .ok (a / b)

/-- Model of `myresults[k] = v` on a Python dict in insertion order. -/
def dictSet : List (String × ℚ) → String → ℚ → List (String × ℚ)
  | [], k, v => [(k, v)]
  | (k2, v2) :: rest, k, v =>
      if k2 = k then (k2, v) :: rest else (k2, v2) :: dictSet rest k v

/-- The per-token resolution of `lang_detector`: `_simple_search` in fast
mode, `_return_lemma(..., greedy=True)` in extensive mode. -/
def detectResolve (rules : Str → String → Option Str) (extensive : Bool)
    (langcode : String) (langdict : Table) (token : Str) :
    Except PyErr (Option Str) :=
  if extensive = false then simpleSearch langdict false token
  else returnLemma rules langdict true langcode false token

/-- Whether a resolution result is a hit (`result is not None`). -/
def resolvedSome : Except PyErr (Option Str) → Bool
  | .ok (some _) => true
  | _ => false

/-- The `for token in tokens` loop of `lang_detector`, building
`in_target`. -/
def inTargetLoop (resolve : Str → Except PyErr (Option Str)) :
    List Str → Except PyErr (List Str)
  | [] => .ok []
  | t :: ts =>
      match resolve t with
      | .error e => .error e
      | .ok r =>
          match inTargetLoop resolve ts with
          | .error e => .error e
          | .ok rest => .ok (if r.isSome then t :: rest else rest)

/-- The `for langcode, langdict in langdata` loop of `lang_detector`,
building `myresults` and the set `found`. -/
def detectorLoop (rules : Str → String → Option Str) (extensive : Bool)
    (tokens : List Str) :
    List (String × Table) → List (String × ℚ) → Finset Str →
    Except PyErr (List (String × ℚ) × Finset Str)
  | [], myresults, found => .ok (myresults, found)
  | (langcode, langdict) :: rest, myresults, found =>
      match inTargetLoop (detectResolve rules extensive langcode langdict) tokens with
      | .error e => .error e
      | .ok inTarget =>
          match pyDiv (inTarget.length : ℚ) (tokens.length : ℚ) with
          | .error e => .error e
          | .ok score =>
              detectorLoop rules extensive tokens rest
                (dictSet myresults langcode score) (found ∪ inTarget.toFinset)

/-- One full pass of `lang_detector` (without the tie-break rerun):
per-language scores, the `unk` entry, and the descending sort. -/
def langDetectorPass (rules : Str → String → Option Str) (text : Str)
    (langdata : List (String × Table)) (extensive : Bool) :
    Except PyErr (List (String × ℚ)) :=
  let tokens := prepareText text
  match detectorLoop rules extensive tokens langdata [] ∅ with
  | .error e => .error e
  | .ok (myresults, found) =>
      match pyDiv ((tokens.length : ℚ) - (found.card : ℚ)) (tokens.length : ℚ) with
      | .error e => .error e
      | .ok unk =>
          .ok ((dictSet myresults "unk" unk).insertionSort (fun a b => b.2 ≤ a.2))

/-- Model of `lang_detector(text, langdata, extensive)`: in fast mode, a tie
between the top two entries triggers a full rerun in extensive mode;
indexing `results[1]` raises `IndexError` when fewer than two entries
exist. -/
def langDetector (rules : Str → String → Option Str) (text : Str)
    (langdata : List (String × Table)) : Bool → Except PyErr (List (String × ℚ))
  | true => langDetectorPass rules text langdata true
  | false =>
      match langDetectorPass rules text langdata false with
      | .error e => .error e
      | .ok results =>
          match results with
          | r0 :: r1 :: _ =>
              if r0.2 = r1.2 then langDetectorPass rules text langdata true
              else .ok results
          | _ => .error .indexError

/-- The inner `for language in langdata` loop of `in_target_language`:
how many languages resolve token `t`. -/
def inTargetInner (rules : Str → String → Option Str) (t : Str) :
    List (String × Table) → Except PyErr Nat
  | [] => .ok 0
  | (code, d) :: rest =>
      match returnLemma rules d true code false t with
      | .error e => .error e
      | .ok r =>
          match inTargetInner rules t rest with
          | .error e => .error e
          | .ok n => .ok (if r.isSome then n + 1 else n)

/-- The outer loop of `in_target_language`, accumulating `total` and
`in_target`. -/
def inTargetTotals (rules : Str → String → Option Str)
    (langdata : List (String × Table)) : List Str → Except PyErr (Nat × Nat)
  | [] => .ok (0, 0)
  | t :: ts =>
      match inTargetInner rules t langdata with
      | .error e => .error e
      | .ok k =>
          match inTargetTotals rules langdata ts with
          | .error e => .error e
          | .ok (total, cnt) => .ok (total + 1, cnt + k)

/-- Model of `in_target_language(text, langdata)`. -/
def inTargetLanguage (rules : Str → String → Option Str) (text : Str)
    (langdata : List (String × Table)) : Except PyErr ℚ :=
  match inTargetTotals rules langdata (prepareText text) with
  | .error e => .error e
  | .ok (total, cnt) => pyDiv (cnt : ℚ) (total : ℚ)

/-! ## Theorems -/

theorem levRec_nil_left (ys : Str) : levRec [] ys = ys.length := by
  rw [levRec]

theorem levRec_nil_right (xs : Str) : levRec xs [] = xs.length := by
  cases xs with
  | nil => rw [levRec]
  | cons x xs => rw [levRec]

theorem levRec_cons_cons (x y : Char) (xs ys : Str) :
    levRec (x :: xs) (y :: ys) =
      if x = y then levRec xs ys
      else 1 + min (levRec xs ys) (min (levRec (x :: xs) ys) (levRec xs (y :: ys))) := by
  rw [levRec]

theorem levRec_self (xs : Str) : levRec xs xs = 0 := by
  induction xs with
  | nil => rw [levRec_nil_left]; rfl
  | cons x xs ih => rw [levRec_cons_cons]; simp [ih]

theorem levRec_eq_zero_iff (xs ys : Str) : levRec xs ys = 0 ↔ xs = ys := by
  induction xs generalizing ys with
  | nil =>
      rw [levRec_nil_left]
      cases ys <;> simp
  | cons x xs ih =>
      cases ys with
      | nil => simp [levRec_nil_right]
      | cons y ys =>
          rw [levRec_cons_cons]
          by_cases hxy : x = y
          · subst hxy; simp [ih]
          · simp [hxy]

theorem levRec_length_bound :
    ∀ (n : Nat) (a b : Str), a.length + b.length ≤ n →
      b.length ≤ a.length + levRec a b ∧ a.length ≤ b.length + levRec a b := by
  intro n
  induction n with
  | zero =>
      intro a b h
      have ha : a = [] := by cases a <;> simp_all
      have hb : b = [] := by cases b <;> simp_all
      subst ha; subst hb; simp [levRec_self]
  | succ n ih =>
      intro a b h
      cases a with
      | nil => simp [levRec_nil_left]
      | cons x xs =>
          cases b with
          | nil => simp [levRec_nil_right]
          | cons y ys =>
              rw [levRec_cons_cons]
              by_cases hxy : x = y
              · have h1 := ih xs ys (by simp only [List.length_cons] at h; omega)
                simp only [if_pos hxy, List.length_cons]
                omega
              · have h1 := ih xs ys (by simp only [List.length_cons] at h; omega)
                have h2 := ih (x :: xs) ys (by simp only [List.length_cons] at h ⊢; omega)
                have h3 := ih xs (y :: ys) (by simp only [List.length_cons] at h ⊢; omega)
                simp only [if_neg hxy, List.length_cons] at h1 h2 h3 ⊢
                rcases min_choice (levRec (x :: xs) ys) (levRec xs (y :: ys)) with hm | hm <;>
                  rcases min_choice (levRec xs ys)
                    (min (levRec (x :: xs) ys) (levRec xs (y :: ys))) with hm2 | hm2 <;>
                  rw [hm2] <;> omega

/-- Changing either string by one leading character changes `levRec` by at
most one (all four directions, proved simultaneously by strong induction on
the total length). -/
theorem levRec_cons_lipschitz :
    ∀ n : Nat,
      (∀ (v b : Str) (c : Char), v.length + b.length ≤ n →
         levRec v b ≤ 1 + levRec (c :: v) b) ∧
      (∀ (a b : Str) (y : Char), a.length + b.length ≤ n →
         levRec a (y :: b) ≤ 1 + levRec a b) ∧
      (∀ (v b : Str) (c : Char), v.length + b.length ≤ n →
         levRec (c :: v) b ≤ 1 + levRec v b) ∧
      (∀ (a b : Str) (y : Char), a.length + b.length ≤ n →
         levRec a b ≤ 1 + levRec a (y :: b)) := by
  intro n
  induction n with
  | zero =>
      refine ⟨?_, ?_, ?_, ?_⟩ <;> intro a b c h <;>
        (have ha : a = [] := by cases a <;> simp_all) <;>
        (have hb : b = [] := by cases b <;> simp_all) <;>
        subst ha <;> subst hb <;>
        simp [levRec_self, levRec_nil_left, levRec_nil_right]
  | succ n ih =>
      obtain ⟨ihP1, ihP2, ihP3, ihP4⟩ := ih
      have P1 : ∀ (v b : Str) (c : Char), v.length + b.length ≤ n + 1 →
          levRec v b ≤ 1 + levRec (c :: v) b := by
        intro v b c h
        cases b with
        | nil =>
            simp only [levRec_nil_right, List.length_cons]
            omega
        | cons y b' =>
            rw [levRec_cons_cons]
            by_cases hcy : c = y
            · simp only [if_pos hcy]
              have := ihP2 v b' y (by simp only [List.length_cons] at h; omega)
              omega
            · simp only [if_neg hcy]
              have hA := ihP2 v b' y (by simp only [List.length_cons] at h; omega)
              have hB := ihP1 v b' c (by simp only [List.length_cons] at h; omega)
              rcases min_choice (levRec (c :: v) b') (levRec v (y :: b')) with hm | hm <;>
                rcases min_choice (levRec v b')
                  (min (levRec (c :: v) b') (levRec v (y :: b'))) with hm2 | hm2 <;>
                rw [hm2] <;> omega
      have P2 : ∀ (a b : Str) (y : Char), a.length + b.length ≤ n + 1 →
          levRec a (y :: b) ≤ 1 + levRec a b := by
        intro a b y h
        cases a with
        | nil => simp only [levRec_nil_left, List.length_cons]; omega
        | cons x a' =>
            rw [levRec_cons_cons]
            by_cases hxy : x = y
            · simp only [if_pos hxy]
              exact ihP1 a' b x (by simp only [List.length_cons] at h; omega)
            · simp only [if_neg hxy]
              have h1 := min_le_left (levRec (x :: a') b) (levRec a' (y :: b))
              have h2 := min_le_right (levRec a' b)
                (min (levRec (x :: a') b) (levRec a' (y :: b)))
              omega
      have P3 : ∀ (v b : Str) (c : Char), v.length + b.length ≤ n + 1 →
          levRec (c :: v) b ≤ 1 + levRec v b := by
        intro v b c h
        cases b with
        | nil => simp only [levRec_nil_right, List.length_cons]; omega
        | cons y b' =>
            rw [levRec_cons_cons]
            by_cases hcy : c = y
            · simp only [if_pos hcy]
              exact ihP4 v b' y (by simp only [List.length_cons] at h; omega)
            · simp only [if_neg hcy]
              have h1 := min_le_right (levRec (c :: v) b') (levRec v (y :: b'))
              have h2 := min_le_right (levRec v b')
                (min (levRec (c :: v) b') (levRec v (y :: b')))
              omega
      have P4 : ∀ (a b : Str) (y : Char), a.length + b.length ≤ n + 1 →
          levRec a b ≤ 1 + levRec a (y :: b) := by
        intro a b y h
        cases a with
        | nil => simp only [levRec_nil_left, List.length_cons]; omega
        | cons x a' =>
            rw [levRec_cons_cons]
            by_cases hxy : x = y
            · simp only [if_pos hxy]
              exact ihP3 a' b x (by simp only [List.length_cons] at h; omega)
            · simp only [if_neg hxy]
              have hA := ihP3 a' b x (by simp only [List.length_cons] at h; omega)
              have hB := ihP4 a' b y (by simp only [List.length_cons] at h; omega)
              rcases min_choice (levRec (x :: a') b) (levRec a' (y :: b)) with hm | hm <;>
                rcases min_choice (levRec a' b)
                  (min (levRec (x :: a') b) (levRec a' (y :: b))) with hm2 | hm2 <;>
                rw [hm2] <;> omega
      exact ⟨P1, P2, P3, P4⟩

theorem levRec_le_consL (v b : Str) (c : Char) : levRec v b ≤ 1 + levRec (c :: v) b :=
  (levRec_cons_lipschitz (v.length + b.length)).1 v b c le_rfl

theorem levRec_consR_le (a b : Str) (y : Char) : levRec a (y :: b) ≤ 1 + levRec a b :=
  (levRec_cons_lipschitz (a.length + b.length)).2.1 a b y le_rfl

theorem levRec_consL_le (v b : Str) (c : Char) : levRec (c :: v) b ≤ 1 + levRec v b :=
  (levRec_cons_lipschitz (v.length + b.length)).2.2.1 v b c le_rfl

theorem levRec_le_consR (a b : Str) (y : Char) : levRec a b ≤ 1 + levRec a (y :: b) :=
  (levRec_cons_lipschitz (a.length + b.length)).2.2.2 a b y le_rfl

/-- Substituting the leading character changes `levRec` by at most one. -/
theorem levRec_sub_le (c d : Char) (v : Str) :
    ∀ b : Str, levRec (c :: v) b ≤ 1 + levRec (d :: v) b := by
  intro b
  induction b with
  | nil => simp only [levRec_nil_right, List.length_cons]; omega
  | cons y b' ih =>
      by_cases hcd : c = d
      · subst hcd; omega
      · rw [levRec_cons_cons c y v b', levRec_cons_cons d y v b']
        by_cases hcy : c = y <;> by_cases hdy : d = y
        · exact absurd (hcy.trans hdy.symm) hcd
        · simp only [if_pos hcy, if_neg hdy]
          have hA := levRec_le_consL v b' d
          have hB := levRec_le_consR v b' y
          rcases min_choice (levRec (d :: v) b') (levRec v (y :: b')) with hm | hm <;>
            rcases min_choice (levRec v b')
              (min (levRec (d :: v) b') (levRec v (y :: b'))) with hm2 | hm2 <;>
            rw [hm2] <;> omega
        · simp only [if_neg hcy, if_pos hdy]
          have h1 := min_le_left (levRec v b')
            (min (levRec (c :: v) b') (levRec v (y :: b')))
          omega
        · simp only [if_neg hcy, if_neg hdy]
          have h1 := min_le_left (levRec v b')
            (min (levRec (c :: v) b') (levRec v (y :: b')))
          have h2 := min_le_left (levRec (c :: v) b') (levRec v (y :: b'))
          have h3 := min_le_right (levRec (c :: v) b') (levRec v (y :: b'))
          have h4 := min_le_right (levRec v b')
            (min (levRec (c :: v) b') (levRec v (y :: b')))
          rcases min_choice (levRec (d :: v) b') (levRec v (y :: b')) with hm | hm <;>
            rcases min_choice (levRec v b')
              (min (levRec (d :: v) b') (levRec v (y :: b'))) with hm2 | hm2 <;>
            rw [hm2] <;> omega

/-- If an edit in the tail raises `levRec` by at most one, so does the same
edit below a common head character. -/
theorem levRec_cons_compat (x : Char) (s t : Str)
    (hst : ∀ b : Str, levRec s b ≤ 1 + levRec t b) :
    ∀ b : Str, levRec (x :: s) b ≤ 1 + levRec (x :: t) b := by
  intro b
  induction b with
  | nil =>
      have h1 := hst t
      rw [levRec_self] at h1
      have h2 := (levRec_length_bound (s.length + t.length) s t le_rfl).2
      simp only [levRec_nil_right, List.length_cons]
      omega
  | cons y b' ih =>
      rw [levRec_cons_cons x y s b', levRec_cons_cons x y t b']
      by_cases hxy : x = y
      · simp only [if_pos hxy]
        exact hst b'
      · simp only [if_neg hxy]
        have h1 := hst b'
        have h2 := hst (y :: b')
        have h3 := min_le_left (levRec s b')
          (min (levRec (x :: s) b') (levRec s (y :: b')))
        have h4 := min_le_left (levRec (x :: s) b') (levRec s (y :: b'))
        have h5 := min_le_right (levRec (x :: s) b') (levRec s (y :: b'))
        have h6 := min_le_right (levRec s b')
          (min (levRec (x :: s) b') (levRec s (y :: b')))
        rcases min_choice (levRec (x :: t) b') (levRec t (y :: b')) with hm | hm <;>
          rcases min_choice (levRec t b')
            (min (levRec (x :: t) b') (levRec t (y :: b'))) with hm2 | hm2 <;>
          rw [hm2] <;> omega

theorem levRec_editStep_le {a a1 : Str} (h : EditStep a a1) :
    ∀ b : Str, levRec a b ≤ 1 + levRec a1 b := by
  cases h with
  | ins u v c =>
      induction u with
      | nil => exact fun b => levRec_le_consL v b c
      | cons x u ih => exact levRec_cons_compat x _ _ ih
  | del u v c =>
      induction u with
      | nil => exact fun b => levRec_consL_le v b c
      | cons x u ih => exact levRec_cons_compat x _ _ ih
  | sub u v c d =>
      induction u with
      | nil => exact levRec_sub_le c d v
      | cons x u ih => exact levRec_cons_compat x _ _ ih

/-- Soundness: every chain of `n` edits bounds the distance by `n`. -/
theorem levRec_le_of_chain {n : Nat} {a b : Str} (h : EditChain n a b) :
    levRec a b ≤ n := by
  induction h with
  | refl a => rw [levRec_self]
  | @step m p q r hs hc ih =>
      have h2 := levRec_editStep_le hs r
      omega

theorem editStep_cons {a b : Str} (x : Char) (h : EditStep a b) :
    EditStep (x :: a) (x :: b) := by
  cases h with
  | ins u v c => exact EditStep.ins (x :: u) v c
  | del u v c => exact EditStep.del (x :: u) v c
  | sub u v c d => exact EditStep.sub (x :: u) v c d

theorem editChain_cons {n : Nat} {a b : Str} (x : Char) (h : EditChain n a b) :
    EditChain n (x :: a) (x :: b) := by
  induction h with
  | refl a => exact EditChain.refl (x :: a)
  | step hs _ ih => exact EditChain.step (editStep_cons x hs) ih

theorem editChain_nil_left (b : Str) : EditChain b.length [] b := by
  induction b with
  | nil => exact EditChain.refl []
  | cons y ys ih =>
      exact EditChain.step (EditStep.ins [] [] y) (editChain_cons y ih)

theorem editChain_nil_right (a : Str) : EditChain a.length a [] := by
  induction a with
  | nil => exact EditChain.refl []
  | cons x xs ih => exact EditChain.step (EditStep.del [] xs x) ih

theorem editChain_trans {m n : Nat} {a b c : Str}
    (h1 : EditChain m a b) (h2 : EditChain n b c) : EditChain (m + n) a c := by
  induction h1 with
  | refl a => simpa using h2
  | step hs _ ih =>
      rw [Nat.succ_add]
      exact EditChain.step hs (ih h2)

/-- Completeness: there is a chain of exactly `levRec a b` edits from `a`
to `b`. -/
theorem chain_of_levRec :
    ∀ (n : Nat) (a b : Str), a.length + b.length ≤ n → EditChain (levRec a b) a b := by
  intro n
  induction n with
  | zero =>
      intro a b h
      have ha : a = [] := by cases a <;> simp_all
      have hb : b = [] := by cases b <;> simp_all
      subst ha; subst hb
      rw [levRec_self]; exact EditChain.refl []
  | succ n ih =>
      intro a b h
      cases a with
      | nil => rw [levRec_nil_left]; exact editChain_nil_left b
      | cons x xs =>
          cases b with
          | nil => rw [levRec_nil_right]; exact editChain_nil_right (x :: xs)
          | cons y ys =>
              rw [levRec_cons_cons]
              by_cases hxy : x = y
              · subst hxy
                simp only [if_pos rfl]
                exact editChain_cons x
                  (ih xs ys (by simp only [List.length_cons] at h; omega))
              · simp only [if_neg hxy]
                rcases min_choice (levRec (x :: xs) ys) (levRec xs (y :: ys)) with hm | hm <;>
                  rcases min_choice (levRec xs ys)
                    (min (levRec (x :: xs) ys) (levRec xs (y :: ys))) with hm2 | hm2 <;>
                  rw [hm2]
                · rw [Nat.add_comm]
                  exact EditChain.step (EditStep.sub [] xs x y)
                    (editChain_cons y (ih xs ys (by simp only [List.length_cons] at h; omega)))
                · rw [hm, Nat.add_comm]
                  exact EditChain.step (EditStep.ins [] (x :: xs) y)
                    (editChain_cons y
                      (ih (x :: xs) ys (by simp only [List.length_cons] at h ⊢; omega)))
                · rw [Nat.add_comm]
                  exact EditChain.step (EditStep.sub [] xs x y)
                    (editChain_cons y (ih xs ys (by simp only [List.length_cons] at h; omega)))
                · rw [hm, Nat.add_comm]
                  exact EditChain.step (EditStep.del [] xs x)
                    (ih xs (y :: ys) (by simp only [List.length_cons] at h ⊢; omega))

theorem editStep_symm {a b : Str} (h : EditStep a b) : EditStep b a := by
  cases h with
  | ins u v c => exact EditStep.del u v c
  | del u v c => exact EditStep.ins u v c
  | sub u v c d => exact EditStep.sub u v d c

theorem editChain_symm {n : Nat} {a b : Str} (h : EditChain n a b) :
    EditChain n b a := by
  induction h with
  | refl a => exact EditChain.refl a
  | @step m p q r hs hc ih =>
      have := editChain_trans ih
        (EditChain.step (editStep_symm hs) (EditChain.refl p))
      simpa using this

theorem levRec_symm (a b : Str) : levRec a b = levRec b a := by
  apply Nat.le_antisymm
  · exact levRec_le_of_chain
      (editChain_symm (chain_of_levRec (b.length + a.length) b a le_rfl))
  · exact levRec_le_of_chain
      (editChain_symm (chain_of_levRec (a.length + b.length) a b le_rfl))

theorem levRec_triangle (a b c : Str) :
    levRec a c ≤ levRec a b + levRec b c :=
  levRec_le_of_chain
    (editChain_trans (chain_of_levRec (a.length + b.length) a b le_rfl)
      (chain_of_levRec (b.length + c.length) b c le_rfl))

theorem editStep_reverse {a b : Str} (h : EditStep a b) :
    EditStep a.reverse b.reverse := by
  cases h with
  | ins u v c =>
      have h1 : (u ++ v).reverse = v.reverse ++ u.reverse := by
        simp [List.reverse_append]
      have h2 : (u ++ c :: v).reverse = v.reverse ++ c :: u.reverse := by
        simp [List.reverse_append]
      rw [h1, h2]
      exact EditStep.ins v.reverse u.reverse c
  | del u v c =>
      have h1 : (u ++ v).reverse = v.reverse ++ u.reverse := by
        simp [List.reverse_append]
      have h2 : (u ++ c :: v).reverse = v.reverse ++ c :: u.reverse := by
        simp [List.reverse_append]
      rw [h1, h2]
      exact EditStep.del v.reverse u.reverse c
  | sub u v c d =>
      have h1 : (u ++ c :: v).reverse = v.reverse ++ c :: u.reverse := by
        simp [List.reverse_append]
      have h2 : (u ++ d :: v).reverse = v.reverse ++ d :: u.reverse := by
        simp [List.reverse_append]
      rw [h1, h2]
      exact EditStep.sub v.reverse u.reverse c d

theorem editChain_reverse {n : Nat} {a b : Str} (h : EditChain n a b) :
    EditChain n a.reverse b.reverse := by
  induction h with
  | refl a => exact EditChain.refl a.reverse
  | step hs _ ih => exact EditChain.step (editStep_reverse hs) ih

theorem levRec_reverse (a b : Str) : levRec a.reverse b.reverse = levRec a b := by
  apply Nat.le_antisymm
  · exact levRec_le_of_chain
      (editChain_reverse (chain_of_levRec (a.length + b.length) a b le_rfl))
  · have h := editChain_reverse
      (chain_of_levRec (a.reverse.length + b.reverse.length) a.reverse b.reverse le_rfl)
    simpa using levRec_le_of_chain h

theorem prefRevs_expose (acc : Str) (ys : Str) :
    ∃ tl, prefRevs acc ys = acc :: tl := by
  cases ys with
  | nil => exact ⟨[], rfl⟩
  | cons y ys => exact ⟨prefRevs (y :: acc) ys, rfl⟩

theorem prefRevs_map_length :
    ∀ (ys acc : Str), (prefRevs acc ys).map List.length
      = List.range' acc.length (ys.length + 1) := by
  intro ys
  induction ys with
  | nil => intro acc; simp [prefRevs]
  | cons y ys ih =>
      intro acc
      rw [prefRevs, List.map_cons, ih (y :: acc)]
      simp [List.range'_succ]

theorem prefRevs_getLastD :
    ∀ (ys acc : Str) (d : Str), (prefRevs acc ys).getLastD d = ys.reverse ++ acc := by
  intro ys
  induction ys with
  | nil => intro acc d; simp [prefRevs]
  | cons y ys ih =>
      intro acc d
      rw [prefRevs, List.getLastD_cons, ih (y :: acc)]
      simp

theorem prefRevs_map_getLastD (f : Str → Nat) :
    ∀ (ys acc : Str) (d : Nat),
      ((prefRevs acc ys).map f).getLastD d = f ((prefRevs acc ys).getLastD []) := by
  intro ys
  induction ys with
  | nil => intro acc d; simp [prefRevs]
  | cons y ys ih =>
      intro acc d
      rw [prefRevs, List.map_cons, List.getLastD_cons, List.getLastD_cons,
          ih (y :: acc) (f acc), prefRevs_getLastD, prefRevs_getLastD]

/-- Row invariant of the Python inner loop: if the previous row holds
`levRec p q` for each reversed prefix `q`, then prepending the boundary
value and running `rowAux` yields the row for `c1 :: p`. -/
theorem row_spec (c1 : Char) (p : Str) :
    ∀ (ys acc : Str) (left : Nat), left = levRec (c1 :: p) acc →
      levRec (c1 :: p) acc :: rowAux c1 ys ((prefRevs acc ys).map (levRec p)) left
        = (prefRevs acc ys).map (levRec (c1 :: p)) := by
  intro ys
  induction ys with
  | nil =>
      intro acc left hleft
      simp [prefRevs, rowAux]
  | cons y ys ih =>
      intro acc left hleft
      obtain ⟨tl, htl⟩ := prefRevs_expose (y :: acc) ys
      rw [prefRevs, List.map_cons, List.map_cons, htl, List.map_cons]
      rw [rowAux]
      have hcell : (if c1 = y then levRec p acc
          else 1 + min left (min (levRec p acc) (levRec p (y :: acc))))
          = levRec (c1 :: p) (y :: acc) := by
        rw [levRec_cons_cons, hleft]
        by_cases hcy : c1 = y
        · simp [hcy]
        · simp only [if_neg hcy]
          have : min (levRec (c1 :: p) acc) (min (levRec p acc) (levRec p (y :: acc)))
              = min (levRec p acc) (min (levRec (c1 :: p) acc) (levRec p (y :: acc))) := by
            rw [min_left_comm]
          rw [this]
      simp only [hcell]
      have hrec := ih (y :: acc) (levRec (c1 :: p) (y :: acc)) rfl
      rw [htl, List.map_cons] at hrec
      rw [hrec]

/-- Outer-loop invariant: starting from the row for the processed (and
reversed) prefix `p`, folding the remaining characters `cs` of `str1`
produces the row for `cs.reverse ++ p`. -/
theorem dpLoop_spec :
    ∀ (cs str2 p : Str),
      dpLoop cs str2 ((prefRevs [] str2).map (levRec p)) p.length
        = (prefRevs [] str2).map (levRec (cs.reverse ++ p)) := by
  intro cs
  induction cs with
  | nil => intro str2 p; rw [dpLoop]; simp
  | cons c1 cs ih =>
      intro str2 p
      rw [dpLoop]
      have hnil : levRec (c1 :: p) [] = p.length + 1 := by
        rw [levRec_nil_right]; simp
      have hrow := row_spec c1 p str2 [] (p.length + 1) hnil.symm
      rw [hnil] at hrow
      rw [hrow]
      have := ih str2 (c1 :: p)
      simp only [List.length_cons] at this
      rw [this]
      simp

/-- The dynamic program agrees with the recursive Levenshtein distance. -/
theorem dp_eq_levRec (str1 str2 : Str) :
    (dpLoop str1 str2 (List.range (str2.length + 1)) 0).getLastD 0
      = levRec str1 str2 := by
  have hinit : List.range (str2.length + 1) = (prefRevs [] str2).map (levRec []) := by
    have h1 : (prefRevs [] str2).map (levRec []) = (prefRevs [] str2).map List.length := by
      apply List.map_congr_left
      intro q _
      exact levRec_nil_left q
    rw [h1, prefRevs_map_length str2 []]
    simp [List.range_eq_range']
  rw [hinit]
  have h0 : (0 : Nat) = ([] : Str).length := rfl
  rw [h0, dpLoop_spec str1 str2 []]
  rw [prefRevs_map_getLastD, prefRevs_getLastD]
  simp only [List.append_nil]
  exact levRec_reverse str1 str2

theorem levenshteinDist_eq_levRec (s1 s2 : Str) :
    levenshteinDist s1 s2 = levRec s1 s2 := by
  unfold levenshteinDist
  by_cases h : s1 = s2
  · subst h; simp [levRec_self]
  · simp only [if_neg h]
    by_cases hlen : s1.length > s2.length
    · simp only [if_pos hlen]
      rw [dp_eq_levRec s2 s1]
      exact levRec_symm s2 s1
    · simp only [if_neg hlen]
      exact dp_eq_levRec s1 s2

/-- Claim C4: `_levenshtein_dist` returns a non-negative integer for every
pair of strings, is symmetric, is zero exactly on equal strings, satisfies
the triangle inequality, and equals the Levenshtein distance counting
single-character insert, delete and substitute at unit cost — the latter
expressed by `EditChain`: the returned value is the length of some chain of
unit edits from `a` to `b` and a lower bound on the length of any such
chain. -/
theorem claim_C4_levenshtein_contract (a b c : Str) :
    0 ≤ levenshteinDist a b ∧
    levenshteinDist a b = levenshteinDist b a ∧
    (levenshteinDist a b = 0 ↔ a = b) ∧
    levenshteinDist a c ≤ levenshteinDist a b + levenshteinDist b c ∧
    EditChain (levenshteinDist a b) a b ∧
    (∀ n : Nat, EditChain n a b → levenshteinDist a b ≤ n) := by
  refine ⟨Nat.zero_le _, ?_, ?_, ?_, ?_, ?_⟩
  · rw [levenshteinDist_eq_levRec, levenshteinDist_eq_levRec]
    exact levRec_symm a b
  · rw [levenshteinDist_eq_levRec]
    exact levRec_eq_zero_iff a b
  · rw [levenshteinDist_eq_levRec, levenshteinDist_eq_levRec, levenshteinDist_eq_levRec]
    exact levRec_triangle a b c
  · rw [levenshteinDist_eq_levRec]
    exact chain_of_levRec (a.length + b.length) a b le_rfl
  · intro n hn
    rw [levenshteinDist_eq_levRec]
    exact levRec_le_of_chain hn

theorem pyHead_error {s : Str} {e : PyErr} (h : pyHead s = .error e) :
    e = .indexError := by
  cases s with
  | nil => cases h; rfl
  | cons c cs => cases h

theorem simpleSearch_error {d : Table} {i : Bool} {t : Str} {e : PyErr}
    (h : simpleSearch d i t = .error e) : e = .indexError := by
  unfold simpleSearch at h
  simp only [] at h
  repeat' split at h
  all_goals cases h
  all_goals exact pyHead_error (by assumption)

theorem decomposeStep_error {d : Table} {al : Nat} {t : Str} {c : Nat} {e : PyErr}
    (h : decomposeStep d al t c = .error e) : e = .indexError := by
  unfold decomposeStep at h
  simp only [] at h
  repeat' split at h
  all_goals cases h
  all_goals
    first
      | exact simpleSearch_error (by assumption)
      | exact pyHead_error (by assumption)

theorem decomposeLoop_error {d : Table} {al : Nat} {t : Str} {cs : List Nat} {e : PyErr}
    (h : decomposeLoop d al t cs = .error e) : e = .indexError := by
  induction cs with
  | nil => cases h
  | cons c rest ih =>
      unfold decomposeLoop at h
      split at h
      · rename_i heq; cases h; exact decomposeStep_error heq
      · cases h
      · exact ih h

theorem decompose_error {d : Table} {al : Nat} {t : Str} {e : PyErr}
    (h : decompose d al t = .error e) : e = .indexError :=
  decomposeLoop_error h

theorem affixLoop_error {d : Table} {w : Str} {ls : List Nat} {e : PyErr}
    (h : affixLoop d w ls = .error e) : e = .indexError := by
  induction ls with
  | nil => cases h
  | cons l rest ih =>
      cases rest with
      | nil => exact decompose_error h
      | cons l2 rest2 =>
          unfold affixLoop at h
          split at h
          · rename_i heq; cases h; exact decompose_error heq
          · cases h
          · exact ih h

theorem affixSearch_error {d : Table} {m : Nat} {w : Str} {e : PyErr}
    (h : affixSearch d m w = .error e) : e = .indexError := by
  unfold affixSearch at h
  split at h
  · rename_i heq; cases h; exact affixLoop_error heq
  · cases h
  · cases h

theorem suffixLoop_error {d : Table} {t : Str} {cs : List Nat}
    {acc : Option (Str × Nat)} {e : PyErr}
    (h : suffixLoop d t cs acc = .error e) : e = .indexError := by
  induction cs generalizing acc with
  | nil => cases h
  | cons c rest ih =>
      unfold suffixLoop at h
      simp only [] at h
      split at h
      · rename_i heq; cases h; exact simpleSearch_error heq
      · split at h
        · exact ih h
        · exact ih h
      · exact ih h

theorem suffixSearch_error {d : Table} {t : Str} {e : PyErr}
    (h : suffixSearch d t = .error e) : e = .indexError := by
  unfold suffixSearch at h
  split at h
  · rename_i heq; cases h; exact suffixLoop_error heq
  · cases h
  · cases h

theorem dehyphen_error {d : Table} {g : Bool} {t : Str} {e : PyErr}
    (h : dehyphen d g t = .error e) : e = .indexError := by
  unfold dehyphen at h
  simp only [] at h
  repeat' split at h
  all_goals cases h
  all_goals
    first
      | exact simpleSearch_error (by assumption)
      | exact pyHead_error (by assumption)
      | exact affixSearch_error (by assumption)

theorem returnLemmaTail_error {d : Table} {g : Bool} {lg : String}
    {t : Str} {cand : Option Str} {e : PyErr}
    (h : returnLemmaTail d g lg t cand = .error e) : e = .indexError := by
  unfold returnLemmaTail at h
  simp only [] at h
  repeat' split at h
  all_goals first
    | cases h
    | exact suffixSearch_error h
  all_goals exact affixSearch_error (by assumption)

theorem returnLemmaCand_error {d : Table} {g : Bool} {lg : String}
    {t c : Str} {e : PyErr}
    (h : returnLemmaCand d g lg t c = .error e) : e = .indexError := by
  unfold returnLemmaCand at h
  split at h
  · rename_i heq; cases h; exact dehyphen_error heq
  · exact returnLemmaTail_error h
  · exact returnLemmaTail_error h

theorem returnLemma_error {rules : Str → String → Option Str} {d : Table}
    {g : Bool} {lg : String} {ini : Bool} {t : Str} {e : PyErr}
    (h : returnLemma rules d g lg ini t = .error e) : e = .indexError := by
  unfold returnLemma at h
  split at h
  · cases h
  · split at h
    · rename_i heq; cases h; exact simpleSearch_error heq
    · exact returnLemmaCand_error h
    · split at h
      · exact returnLemmaCand_error h
      · split at h
        · rename_i heq; cases h; exact dehyphen_error heq
        · exact returnLemmaTail_error h

theorem lemmaLoop_error {rules : Str → String → Option Str} {g i : Bool}
    {t : Str} {ld : List (String × Table)} {e : PyErr}
    (h : lemmaLoop rules g i t ld = .error e) : e = .indexError := by
  induction ld with
  | nil => cases h
  | cons p rest ih =>
      unfold lemmaLoop at h
      split at h
      · rename_i heq; cases h; exact returnLemma_error heq
      · cases h
      · exact ih h

theorem lemmaLoop_all_none (rules : Str → String → Option Str) (g i : Bool) (t : Str) :
    ∀ ld : List (String × Table),
      (∀ p ∈ ld, returnLemma rules p.2 g p.1 i t = .ok none) →
      lemmaLoop rules g i t ld = .ok none := by
  intro ld
  induction ld with
  | nil => intro _; rfl
  | cons p rest ih =>
      intro hall
      obtain ⟨code, d⟩ := p
      unfold lemmaLoop
      rw [hall (code, d) (List.mem_cons_self _ _)]
      exact ih fun q hq => hall q (List.mem_cons_of_mem _ hq)

theorem lemmaLoop_ok_none_inv (rules : Str → String → Option Str) (g i : Bool)
    (t : Str) :
    ∀ ld : List (String × Table), lemmaLoop rules g i t ld = .ok none →
      ∀ p ∈ ld, returnLemma rules p.2 g p.1 i t = .ok none := by
  intro ld
  induction ld with
  | nil => intro _ p hp; cases hp
  | cons q rest ih =>
      intro h p hp
      obtain ⟨code, d⟩ := q
      unfold lemmaLoop at h
      split at h
      · cases h
      · cases h
      · rename_i heq
        rcases List.mem_cons.mp hp with hp1 | hp2
        · subst hp1; exact heq
        · exact ih h p hp2

/-- Claim C5 (amended): A purely numeric token is returned unchanged by
`lemmatize` for every rule set, every flag combination, and every
configuration that loads at least one dictionary (the numeric filter in
`_return_lemma` fires before any lookup). -/
theorem claim_C5_numeric_identity (rules : Str → String → Option Str)
    (loadDict : String → Table) (langs : List String) (token : Str)
    (greedy silent initial : Bool)
    (hnum : pyIsNumeric token = true)
    (hne : loadLangData loadDict langs ≠ []) :
    lemmatizeM rules loadDict langs token greedy silent initial = .ok token := by
  cases hld : loadLangData loadDict langs with
  | nil => exact absurd hld hne
  | cons p rest =>
      obtain ⟨code, d⟩ := p
      unfold lemmatizeM
      rw [hld]
      unfold lemmaLoop returnLemma
      rw [if_pos hnum]

/-- Claim C5 counterexample: The claim quantifies over every language
configuration, but a configuration that loads no dictionary (here the
empty tuple) combined with `silent=False` makes `lemmatize` raise
`ValueError` even on a purely numeric token. -/
theorem claim_C5_counterexample :
    pyIsNumeric ['1'] = true ∧
    lemmatizeM (fun _ _ => none) (fun _ => []) [] ['1'] false false false =
      .error .valueError :=
  ⟨rfl, rfl⟩

theorem claim_C5_witness :
    pyIsNumeric ['7'] = true ∧
    loadLangData (fun _ => []) ["en"] ≠ [] ∧
    lemmatizeM (fun _ _ => none) (fun _ => []) ["en"] ['7'] true false true =
      .ok ['7'] :=
  ⟨by decide, by decide,
    claim_C5_numeric_identity (fun _ _ => none) (fun _ => []) ["en"] ['7']
      true false true (by decide) (by decide)⟩

/-- Claim C2 (amended): A token present verbatim as a key of the *first*
loaded table — provided it is not purely numeric, the call is not
sentence-initial, greedy mode is off, and the stored lemma contains no
hyphen or underscore — is mapped to exactly that table's value. -/
theorem claim_C2_exact_match (rules : Str → String → Option Str)
    (loadDict : String → Table) (langs : List String) (token v : Str)
    (code : String) (d : Table) (rest : List (String × Table)) (silent : Bool)
    (hld : loadLangData loadDict langs = (code, d) :: rest)
    (hnum : pyIsNumeric token = false)
    (hget : dictGet d token = some v)
    (hhyph : hasHyphen v = false) :
    lemmatizeM rules loadDict langs token false silent false = .ok v := by
  have hss : simpleSearch d false token = .ok (some v) := by
    unfold simpleSearch
    simp [hget]
  have hdh : dehyphen d false v = .ok none := by
    unfold dehyphen
    rw [if_pos hhyph]
  have hrl : returnLemma rules d false code false token = .ok (some v) := by
    unfold returnLemma
    rw [if_neg (by simp [hnum]), hss]
    show returnLemmaCand d false code token v = _
    unfold returnLemmaCand
    rw [hdh]
    show returnLemmaTail d false code token (some v) = _
    unfold returnLemmaTail
    rw [if_pos (Or.inr rfl)]
  unfold lemmatizeM
  rw [hld]
  unfold lemmaLoop
  rw [hrl]

/-- Claim C2 counterexample: `foo` is present verbatim in the (single) active
table with value `a-b`, yet `lemmatize` returns `c`: the found lemma is
itself passed through `_dehyphen`, which replaces it via the
hyphen-stripped lookup `ab ↦ c`.  Exact-match lookup therefore does not
always return the stored value. -/
theorem claim_C2_counterexample :
    dictGet [(['f','o','o'], ['a','-','b']), (['a','b'], ['c'])] ['f','o','o'] =
      some ['a','-','b'] ∧
    lemmatizeM (fun _ _ => none)
      (fun _ => [(['f','o','o'], ['a','-','b']), (['a','b'], ['c'])])
      ["en"] ['f','o','o'] false true false = .ok ['c'] ∧
    (['c'] : Str) ≠ ['a','-','b'] :=
  ⟨rfl, rfl, by decide⟩

theorem claim_C2_witness :
    lemmatizeM (fun _ _ => none) (fun _ => [(['c','a','t','s'], ['c','a','t'])])
      ["en"] ['c','a','t','s'] false true false = .ok ['c','a','t'] :=
  claim_C2_exact_match (fun _ _ => none)
    (fun _ => [(['c','a','t','s'], ['c','a','t'])]) ["en"]
    ['c','a','t','s'] ['c','a','t'] "en" [(['c','a','t','s'], ['c','a','t'])] []
    true (by decide) (by decide) (by decide) (by decide)

/-- Claim C1 (amended): When every loaded language yields no candidate and
silent mode is active, `lemmatize` falls back on the lowercased token
exactly when the *first* configured language (`lang[0]`, not the last
attempted one) belongs to `BETTER_LOWER`, and on the unchanged token
otherwise. -/
theorem claim_C1_silent_fallback (rules : Str → String → Option Str)
    (loadDict : String → Table) (l0 : String) (rest : List String) (token : Str)
    (greedy initial : Bool)
    (hmiss : ∀ p ∈ loadLangData loadDict (l0 :: rest),
      returnLemma rules p.2 greedy p.1 initial token = .ok none) :
    lemmatizeM rules loadDict (l0 :: rest) token greedy true initial =
      .ok (if l0 ∈ BETTER_LOWER then pyLower token else token) := by
  unfold lemmatizeM
  rw [lemmaLoop_all_none rules greedy initial token _ hmiss]
  rfl

/-- Claim C1 counterexample: With configuration `("bg", "de")` and a token
found nowhere, silent `lemmatize` returns the lowercased token because
`lang[0] = "bg"` is in `BETTER_LOWER`, although the *last attempted*
language `"de"` is not — contradicting the claim, which predicts the token
unchanged. -/
theorem claim_C1_counterexample :
    lemmatizeM (fun _ _ => none) (fun _ => []) ["bg", "de"] ['A'] false true false =
      .ok ['a'] ∧
    (['a'] : Str) ≠ ['A'] ∧
    (loadLangData (fun _ => []) ["bg", "de"]).getLast? = some ("de", []) ∧
    "de" ∉ BETTER_LOWER ∧
    "bg" ∈ BETTER_LOWER :=
  ⟨rfl, by decide, by decide, by decide, by decide⟩

theorem claim_C1_witness :
    lemmatizeM (fun _ _ => none) (fun _ => []) ["lv"] ['B'] true true false =
      .ok (if "lv" ∈ BETTER_LOWER then pyLower ['B'] else ['B']) :=
  claim_C1_silent_fallback (fun _ _ => none) (fun _ => []) "lv" [] ['B'] true false
    (by decide)

/-- Claim C6 (amended): `lemmatize` returns `ValueError` exactly when silent
mode is off and every loaded language yields no candidate; and in silent
mode with *at least one configured language*, a full miss degrades to an
`.ok` result that is the original or the lowercased token. -/
theorem claim_C6_error_policy (rules : Str → String → Option Str)
    (loadDict : String → Table) (langs : List String) (token : Str)
    (greedy silent initial : Bool) :
    (lemmatizeM rules loadDict langs token greedy silent initial =
        .error .valueError ↔
      silent = false ∧ ∀ p ∈ loadLangData loadDict langs,
        returnLemma rules p.2 greedy p.1 initial token = .ok none) ∧
    (silent = true → langs ≠ [] →
      (∀ p ∈ loadLangData loadDict langs,
        returnLemma rules p.2 greedy p.1 initial token = .ok none) →
      ∃ r : Str,
        lemmatizeM rules loadDict langs token greedy silent initial = .ok r ∧
          (r = token ∨ r = pyLower token)) := by
  constructor
  · constructor
    · intro h
      unfold lemmatizeM at h
      cases hll : lemmaLoop rules greedy initial token (loadLangData loadDict langs) with
      | error e =>
          rw [hll] at h
          cases h
          exact absurd (lemmaLoop_error hll) (by simp)
      | ok oc =>
          rw [hll] at h
          cases oc with
          | some c => cases h
          | none =>
              by_cases hs : silent = false
              · exact ⟨hs, lemmaLoop_ok_none_inv rules greedy initial token _ hll⟩
              · rw [if_neg hs] at h
                cases langs with
                | nil => cases h
                | cons l0 r => cases h
    · rintro ⟨hs, hall⟩
      subst hs
      unfold lemmatizeM
      rw [lemmaLoop_all_none rules greedy initial token _ hall]
      rfl
  · intro hs hlangs hall
    subst hs
    unfold lemmatizeM
    rw [lemmaLoop_all_none rules greedy initial token _ hall]
    cases langs with
    | nil => exact absurd rfl hlangs
    | cons l0 r =>
        by_cases hb : l0 ∈ BETTER_LOWER
        · exact ⟨pyLower token, by simp [hb], Or.inr rfl⟩
        · exact ⟨token, by simp [hb], Or.inl rfl⟩

/-- Claim C6 counterexample: In silent mode with the empty language
configuration (`lang=()`), a plain miss is *not* resolved gracefully:
`lang[0]` raises `IndexError`, so a lookup miss in silent mode can be an
error. -/
theorem claim_C6_counterexample :
    lemmatizeM (fun _ _ => none) (fun _ => []) [] ['x'] false true false =
      .error .indexError :=
  rfl

theorem claim_C6_witness :
    lemmatizeM (fun _ _ => none) (fun _ => []) ["en"] ['q'] false false false =
      .error .valueError ∧
    ∃ r : Str,
      lemmatizeM (fun _ _ => none) (fun _ => []) ["en"] ['q'] false true false =
        .ok r ∧ (r = ['q'] ∨ r = pyLower ['q']) :=
  ⟨(claim_C6_error_policy (fun _ _ => none) (fun _ => []) ["en"] ['q']
      false false false).1.mpr ⟨rfl, by decide⟩,
    (claim_C6_error_policy (fun _ _ => none) (fun _ => []) ["en"] ['q']
      false true false).2 rfl (by decide) (by decide)⟩

/-- Claim C10: For every configuration loading at least one dictionary, the
empty string (not numeric, absent from the first table) makes `lemmatize`
raise `IndexError` from `token[0]` in `_simple_search` instead of
degrading to the original token. -/
theorem claim_C10_empty_token (rules : Str → String → Option Str)
    (loadDict : String → Table) (langs : List String) (code : String)
    (d : Table) (rest : List (String × Table)) (greedy silent initial : Bool)
    (hld : loadLangData loadDict langs = (code, d) :: rest)
    (hget : dictGet d [] = none) :
    lemmatizeM rules loadDict langs [] greedy silent initial =
      .error .indexError := by
  have hss : simpleSearch d initial [] = .error .indexError := by
    unfold simpleSearch
    cases initial <;> simp [pyLower, hget, pyHead]
  have hrl : returnLemma rules d greedy code initial [] = .error .indexError := by
    unfold returnLemma
    rw [if_neg (by decide), hss]
  unfold lemmatizeM
  rw [hld]
  unfold lemmaLoop
  rw [hrl]

theorem claim_C10_witness :
    lemmatizeM (fun _ _ => none) (fun _ => [(['a'], ['a'])]) ["en"] []
      true true true = .error .indexError :=
  claim_C10_empty_token (fun _ _ => none) (fun _ => [(['a'], ['a'])]) ["en"]
    "en" [(['a'], ['a'])] [] true true true (by decide) (by decide)

theorem greedyLoop_bound (datadict : Table) (steps distance : Nat) :
    ∀ (n : Nat) (candidate : Str) (i : Nat), candidate.length ≤ n →
      ((i < steps → (greedyLoop datadict steps distance candidate i).2 ≤ steps) ∧
       (steps ≤ i → (greedyLoop datadict steps distance candidate i).2 ≤ i + 1)) ∧
      ((greedyLoop datadict steps distance candidate i).1 = candidate ∨
        (greedyLoop datadict steps distance candidate i).1.length <
          candidate.length) := by
  intro n
  induction n with
  | zero =>
      intro candidate i hlen
      rw [greedyLoop]
      cases hdg : dictGet datadict candidate with
      | none =>
          refine ⟨⟨fun hi => ?_, fun hi => ?_⟩, Or.inl rfl⟩
          · show i ≤ steps; omega
          · show i ≤ i + 1; omega
      | some next =>
          have hnl : ¬ (next.length < candidate.length ∧
              levenshteinDist next candidate ≤ distance) := by
            intro hc
            omega
          simp only []
          rw [dif_neg hnl]
          refine ⟨⟨fun hi => ?_, fun hi => ?_⟩, Or.inl rfl⟩
          · show i ≤ steps; omega
          · show i ≤ i + 1; omega
  | succ n ih =>
      intro candidate i hlen
      rw [greedyLoop]
      cases hdg : dictGet datadict candidate with
      | none =>
          refine ⟨⟨fun hi => ?_, fun hi => ?_⟩, Or.inl rfl⟩
          · show i ≤ steps; omega
          · show i ≤ i + 1; omega
      | some next =>
          simp only []
          by_cases hlt : next.length < candidate.length ∧
              levenshteinDist next candidate ≤ distance
          · rw [dif_pos hlt]
            by_cases hst : i + 1 ≥ steps
            · rw [if_pos hst]
              refine ⟨⟨fun hi => ?_, fun hi => ?_⟩, ?_⟩
              · show i + 1 ≤ steps
                omega
              · show i + 1 ≤ i + 1
                omega
              · right
                exact hlt.1
            · rw [if_neg hst]
              have hrec := ih next (i + 1) (by omega)
              refine ⟨⟨fun hi => hrec.1.1 (by omega), fun hi => by omega⟩, ?_⟩
              rcases hrec.2 with heq | hlt2
              · right; rw [heq]; exact hlt.1
              · right; omega
          · rw [dif_neg hlt]
            refine ⟨⟨fun hi => ?_, fun hi => ?_⟩, Or.inl rfl⟩
            · show i ≤ steps; omega
            · show i ≤ i + 1; omega

/-- Claim C3 (amended): `_greedy_search` performs at most `max 1 steps` chain
hops (the hop counter is checked only after a hop, so `steps = 0` still
allows one hop), and its result is the input itself or strictly shorter;
each accepted hop is guarded by the successor being strictly shorter than
and within edit distance `distance` of the current candidate (the loop
condition of `greedyLoop`). -/
theorem claim_C3_greedy_bounded (datadict : Table) (steps distance : Nat)
    (candidate : Str) :
    (greedyLoop datadict steps distance candidate 0).2 ≤ max 1 steps ∧
    (greedySearch datadict steps distance candidate = candidate ∨
      (greedySearch datadict steps distance candidate).length <
        candidate.length) := by
  have h := greedyLoop_bound datadict steps distance candidate.length candidate 0
    le_rfl
  constructor
  · rcases Nat.eq_zero_or_pos steps with hs | hs
    · subst hs
      have h2 := h.1.2 (Nat.le_refl 0)
      omega
    · have h2 := h.1.1 hs
      have hm : steps ≤ max 1 steps := le_max_right 1 steps
      omega
  · exact h.2

/-- Claim C3 counterexample: With `steps = 0` the loop still performs one
hop — `i` is incremented and only then compared with `steps` — so "at most
`steps` chain hops" fails at `steps = 0`. -/
theorem claim_C3_counterexample :
    (greedyLoop [(['a', 'b'], ['a'])] 0 5 ['a', 'b'] 0).2 = 1 ∧
    ¬ ((greedyLoop [(['a', 'b'], ['a'])] 0 5 ['a', 'b'] 0).2 ≤ 0) := by
  have hev : greedyLoop [(['a', 'b'], ['a'])] 0 5 ['a', 'b'] 0 = (['a'], 1) := by
    rw [greedyLoop]
    have hd : dictGet [(['a', 'b'], ['a'])] ['a', 'b'] = some ['a'] := by decide
    rw [hd]
    simp only []
    rw [dif_pos (by decide)]
    simp
  rw [hev]
  simp

theorem prepareText_empty {text : Str} (h : letterRuns text = []) :
    prepareText text = [] := by
  unfold prepareText mostCommon tally
  rw [h]
  rfl

theorem langDetectorPass_empty_tokens (rules : Str → String → Option Str)
    (text : Str) (langdata : List (String × Table)) (ext : Bool)
    (htok : prepareText text = []) :
    langDetectorPass rules text langdata ext = .error .zeroDivisionError := by
  unfold langDetectorPass
  rw [htok]
  cases langdata with
  | nil => simp [detectorLoop, pyDiv]
  | cons p rest =>
      obtain ⟨c, d⟩ := p
      simp [detectorLoop, inTargetLoop, pyDiv]

/-- Claim C9: A text with no alphabetic run of three or more characters
yields an empty sampled token list, and both `in_target_language` and
`lang_detector` then divide by `len(tokens) = 0` and fail with
`ZeroDivisionError` — there is no guard. -/
theorem claim_C9_division_by_zero (rules : Str → String → Option Str)
    (text : Str) (langdata : List (String × Table)) (extensive : Bool)
    (h : letterRuns text = []) :
    prepareText text = [] ∧
    inTargetLanguage rules text langdata = .error .zeroDivisionError ∧
    langDetector rules text langdata extensive = .error .zeroDivisionError := by
  have htok := prepareText_empty h
  refine ⟨htok, ?_, ?_⟩
  · unfold inTargetLanguage
    rw [htok]
    simp [inTargetTotals, pyDiv]
  · cases extensive with
    | true => exact langDetectorPass_empty_tokens rules text langdata true htok
    | false =>
        unfold langDetector
        rw [langDetectorPass_empty_tokens rules text langdata false htok]

theorem claim_C9_witness :
    prepareText ['a', 'b', ' ', '1'] = [] ∧
    inTargetLanguage (fun _ _ => none) ['a', 'b', ' ', '1'] [("aa", [])] =
      .error .zeroDivisionError ∧
    langDetector (fun _ _ => none) ['a', 'b', ' ', '1'] [("aa", [])] false =
      .error .zeroDivisionError :=
  claim_C9_division_by_zero (fun _ _ => none) ['a', 'b', ' ', '1']
    [("aa", [])] false (by decide)

/-- Claim C8: In fast mode, a tie between the two top-ranked entries makes
`lang_detector` rerun the whole detection extensively and return that
ranking; in extensive mode the result is always the single pass — no
rerun happens regardless of ties. -/
theorem claim_C8_tie_rerun (rules : Str → String → Option Str) (text : Str)
    (langdata : List (String × Table)) (r0 r1 : String × ℚ)
    (rest : List (String × ℚ))
    (hok : langDetectorPass rules text langdata false = .ok (r0 :: r1 :: rest))
    (htie : r0.2 = r1.2) :
    langDetector rules text langdata false =
      langDetectorPass rules text langdata true ∧
    langDetector rules text langdata true =
      langDetectorPass rules text langdata true := by
  refine ⟨?_, rfl⟩
  unfold langDetector
  rw [hok]
  simp only []
  rw [if_pos htie]

theorem claim_C8_witness :
    langDetector (fun _ _ => none) ['a', 'b', 'c']
        [("aa", [(['a', 'b', 'c'], ['x'])]), ("bb", [(['a', 'b', 'c'], ['x'])])]
        false =
      langDetectorPass (fun _ _ => none) ['a', 'b', 'c']
        [("aa", [(['a', 'b', 'c'], ['x'])]), ("bb", [(['a', 'b', 'c'], ['x'])])]
        true ∧
    langDetector (fun _ _ => none) ['a', 'b', 'c']
        [("aa", [(['a', 'b', 'c'], ['x'])]), ("bb", [(['a', 'b', 'c'], ['x'])])]
        true =
      langDetectorPass (fun _ _ => none) ['a', 'b', 'c']
        [("aa", [(['a', 'b', 'c'], ['x'])]), ("bb", [(['a', 'b', 'c'], ['x'])])]
        true :=
  claim_C8_tie_rerun (fun _ _ => none) ['a', 'b', 'c']
    [("aa", [(['a', 'b', 'c'], ['x'])]), ("bb", [(['a', 'b', 'c'], ['x'])])]
    ("aa", 1) ("bb", 1) [("unk", 0)]
    (by
      have h1 : prepareText ['a', 'b', 'c'] = [['a', 'b', 'c']] := by decide
      unfold langDetectorPass
      rw [h1]
      simp only [detectorLoop, inTargetLoop, detectResolve, simpleSearch,
        dictGet, pyHead, pyDiv, dictSet]
      norm_num)
    rfl

theorem inTargetLoop_ok {resolve : Str → Except PyErr (Option Str)} :
    ∀ {ts l : List Str}, inTargetLoop resolve ts = .ok l →
      l = ts.filter (fun t => resolvedSome (resolve t)) := by
  intro ts
  induction ts with
  | nil => intro l h; cases h; rfl
  | cons t ts ih =>
      intro l h
      unfold inTargetLoop at h
      split at h
      · cases h
      · rename_i r heq
        split at h
        · cases h
        · rename_i rest2 heq2
          cases h
          rw [List.filter_cons]
          have hr : resolvedSome (resolve t) = r.isSome := by
            rw [heq]; cases r <;> rfl
          rw [hr, ← ih heq2]

theorem dictSet_mem_self :
    ∀ (l : List (String × ℚ)) (k : String) (v : ℚ), (k, v) ∈ dictSet l k v := by
  intro l k v
  induction l with
  | nil => simp [dictSet]
  | cons p rest ih =>
      obtain ⟨k2, v2⟩ := p
      unfold dictSet
      by_cases h : k2 = k
      · subst h; simp
      · simp only [if_neg h]
        exact List.mem_cons_of_mem _ ih

theorem dictSet_mem_keys :
    ∀ (l : List (String × ℚ)) (k0 k : String) (v : ℚ),
      (∃ q, (k0, q) ∈ l) → ∃ q, (k0, q) ∈ dictSet l k v := by
  intro l
  induction l with
  | nil => intro k0 k v ⟨q, hq⟩; cases hq
  | cons p rest ih =>
      intro k0 k v ⟨q, hq⟩
      obtain ⟨k2, v2⟩ := p
      unfold dictSet
      by_cases h : k2 = k
      · subst h
        rcases List.mem_cons.mp hq with h1 | h2
        · have hk : k0 = k2 := congrArg Prod.fst h1
          exact ⟨v, by rw [if_pos rfl, hk]; exact List.mem_cons_self _ _⟩
        · exact ⟨q, by rw [if_pos rfl]; exact List.mem_cons_of_mem _ h2⟩
      · rcases List.mem_cons.mp hq with h1 | h2
        · exact ⟨q, by rw [if_neg h]; exact List.mem_cons.mpr (Or.inl h1)⟩
        · obtain ⟨q3, hq3⟩ := ih k0 k v ⟨q, h2⟩
          exact ⟨q3, by rw [if_neg h]; exact List.mem_cons_of_mem _ hq3⟩

theorem dictSet_forall (P : ℚ → Prop) :
    ∀ (l : List (String × ℚ)) (k : String) (v : ℚ),
      (∀ p ∈ l, P p.2) → P v → ∀ p ∈ dictSet l k v, P p.2 := by
  intro l
  induction l with
  | nil =>
      intro k v _ hv p hp
      unfold dictSet at hp
      rcases List.mem_singleton.mp hp with rfl
      exact hv
  | cons q rest ih =>
      intro k v hl hv p hp
      obtain ⟨k2, v2⟩ := q
      unfold dictSet at hp
      by_cases h : k2 = k
      · rw [if_pos h] at hp
        rcases List.mem_cons.mp hp with h1 | h2
        · subst h1; exact hv
        · exact hl _ (List.mem_cons_of_mem _ h2)
      · rw [if_neg h] at hp
        rcases List.mem_cons.mp hp with h1 | h2
        · subst h1; exact hl _ (List.mem_cons_self _ _)
        · exact ih k v (fun r hr => hl r (List.mem_cons_of_mem _ hr)) hv p h2

theorem bump_keys :
    ∀ (acc : List (Str × Nat)) (t : Str),
      (bump acc t).map Prod.fst =
        if t ∈ acc.map Prod.fst then acc.map Prod.fst
        else acc.map Prod.fst ++ [t] := by
  intro acc
  induction acc with
  | nil => intro t; simp [bump]
  | cons p rest ih =>
      intro t
      obtain ⟨k, n⟩ := p
      unfold bump
      by_cases h : k = t
      · subst h
        simp
      · simp only [if_neg h, List.map_cons, ih t, List.mem_cons]
        by_cases hm : t ∈ rest.map Prod.fst
        · rw [if_pos hm, if_pos (Or.inr hm)]
        · rw [if_neg hm, if_neg ?_]
          · simp
          · rintro (h1 | h2)
            · exact h h1.symm
            · exact hm h2

theorem tally_aux_keys_nodup :
    ∀ (ts : List Str) (acc : List (Str × Nat)),
      ((acc.map Prod.fst).Nodup) → ((ts.foldl bump acc).map Prod.fst).Nodup := by
  intro ts
  induction ts with
  | nil => intro acc h; exact h
  | cons t ts ih =>
      intro acc h
      rw [List.foldl_cons]
      apply ih
      rw [bump_keys]
      by_cases hm : t ∈ acc.map Prod.fst
      · rw [if_pos hm]; exact h
      · rw [if_neg hm, ← List.concat_eq_append]
        exact h.concat hm

theorem prepareText_nodup (text : Str) : (prepareText text).Nodup := by
  unfold prepareText mostCommon
  apply List.Nodup.sublist (List.take_sublist _ _)
  have hperm : List.Perm
      (((tally (letterRuns text)).insertionSort (fun a b => b.2 ≤ a.2)).map Prod.fst)
      ((tally (letterRuns text)).map Prod.fst) :=
    (List.perm_insertionSort _ _).map Prod.fst
  exact hperm.nodup_iff.mpr (tally_aux_keys_nodup _ [] List.nodup_nil)

theorem detectorLoop_spec (rules : Str → String → Option Str) (mode : Bool)
    (tokens : List Str) (hne : tokens ≠ []) :
    ∀ (ld : List (String × Table)) (myres0 : List (String × ℚ))
      (found0 : Finset Str) (out : List (String × ℚ) × Finset Str),
      detectorLoop rules mode tokens ld myres0 found0 = .ok out →
      ((∀ p ∈ myres0, 0 ≤ p.2 ∧ p.2 ≤ 1) → ∀ p ∈ out.1, 0 ≤ p.2 ∧ p.2 ≤ 1) ∧
      (∀ k : String, (∃ q, (k, q) ∈ myres0) → ∃ q, (k, q) ∈ out.1) ∧
      (∀ p ∈ ld, ∃ q, (p.1, q) ∈ out.1) ∧
      out.2 = found0 ∪ (tokens.filter (fun t => decide (∃ p ∈ ld,
        resolvedSome (detectResolve rules mode p.1 p.2 t) = true))).toFinset := by
  intro ld
  induction ld with
  | nil =>
      intro myres0 found0 out h
      cases h
      refine ⟨fun hp => hp, fun k hk => hk, by simp, ?_⟩
      simp
  | cons pd rest ih =>
      intro myres0 found0 out h
      obtain ⟨code, d⟩ := pd
      unfold detectorLoop at h
      split at h
      · cases h
      · rename_i inTarget heq
        split at h
        · cases h
        · rename_i score heq2
          have hIT := inTargetLoop_ok heq
          have hnq : ((tokens.length : ℚ)) ≠ 0 := by
            have : tokens.length ≠ 0 := by
              intro hl
              exact hne (List.length_eq_zero.mp hl)
            exact_mod_cast this
          have hscore : 0 ≤ score ∧ score ≤ 1 := by
            unfold pyDiv at heq2
            rw [if_neg hnq] at heq2
            cases heq2
            constructor
            · positivity
            · rw [div_le_one (lt_of_le_of_ne (by positivity) (Ne.symm hnq))]
              have hlen : inTarget.length ≤ tokens.length := by
                rw [hIT]
                exact List.length_filter_le _ _
              exact_mod_cast hlen
          have hrec := ih (dictSet myres0 code score)
            (found0 ∪ inTarget.toFinset) out h
          refine ⟨?_, ?_, ?_, ?_⟩
          · intro hp
            exact hrec.1 (dictSet_forall (fun q => 0 ≤ q ∧ q ≤ 1) myres0 code score hp hscore)
          · intro k hk
            exact hrec.2.1 k (dictSet_mem_keys _ _ _ _ hk)
          · intro p hp
            rcases List.mem_cons.mp hp with h1 | h2
            · subst h1
              exact hrec.2.1 code ⟨score, dictSet_mem_self _ _ _⟩
            · exact hrec.2.2.1 p h2
          · rw [hrec.2.2.2, hIT]
            ext x
            simp only [Finset.mem_union, List.mem_toFinset, List.mem_filter,
              decide_eq_true_eq, List.mem_cons]
            constructor
            · rintro ((hx | hx) | hx)
              · exact Or.inl hx
              · obtain ⟨hxt, hxr⟩ := hx
                exact Or.inr ⟨hxt, ⟨(code, d), Or.inl rfl, hxr⟩⟩
              · obtain ⟨hxt, p, hp, hpr⟩ := hx
                exact Or.inr ⟨hxt, ⟨p, Or.inr hp, hpr⟩⟩
            · rintro (hx | ⟨hxt, p, (hp | hp), hpr⟩)
              · exact Or.inl (Or.inl hx)
              · subst hp
                exact Or.inl (Or.inr ⟨hxt, hpr⟩)
              · exact Or.inr ⟨hxt, p, hp, hpr⟩

theorem langDetectorPass_ok_spec (rules : Str → String → Option Str)
    (text : Str) (langdata : List (String × Table)) (mode : Bool)
    (res : List (String × ℚ))
    (htok : prepareText text ≠ [])
    (hok : langDetectorPass rules text langdata mode = .ok res) :
    (∀ p ∈ res, 0 ≤ p.2 ∧ p.2 ≤ 1) ∧
    List.Sorted (fun a b : String × ℚ => b.2 ≤ a.2) res ∧
    (∀ p ∈ langdata, ∃ q : ℚ, (p.1, q) ∈ res) ∧
    ("unk", 1 -
      (((prepareText text).filter (fun t => decide (∃ p ∈ langdata,
        resolvedSome (detectResolve rules mode p.1 p.2 t) = true))).length : ℚ) /
      ((prepareText text).length : ℚ)) ∈ res := by
  unfold langDetectorPass at hok
  simp only [] at hok
  split at hok
  · cases hok
  · rename_i myresults found heq
    split at hok
    · cases hok
    · rename_i unk hequ
      cases hok
      have hspec := detectorLoop_spec rules mode (prepareText text) htok
        langdata [] ∅ (myresults, found) heq
      have hnq : ((prepareText text).length : ℚ) ≠ 0 := by
        have h0 : (prepareText text).length ≠ 0 := by
          intro hl
          exact htok (List.length_eq_zero.mp hl)
        exact_mod_cast h0
      have hfound : found = ((prepareText text).filter (fun t =>
          decide (∃ p ∈ langdata,
            resolvedSome (detectResolve rules mode p.1 p.2 t) = true))).toFinset := by
        have h2 := hspec.2.2.2
        simpa using h2
      have hcard : (found.card : ℚ) =
          (((prepareText text).filter (fun t => decide (∃ p ∈ langdata,
            resolvedSome (detectResolve rules mode p.1 p.2 t) = true))).length : ℚ) := by
        rw [hfound]
        rw [List.toFinset_card_of_nodup ((prepareText_nodup text).filter _)]
      have hcardle : (found.card : ℚ) ≤ ((prepareText text).length : ℚ) := by
        rw [hcard]
        exact_mod_cast List.length_filter_le _ _
      have hnpos : (0 : ℚ) < ((prepareText text).length : ℚ) :=
        lt_of_le_of_ne (by positivity) (Ne.symm hnq)
      have hunkval : unk = 1 -
          (((prepareText text).filter (fun t => decide (∃ p ∈ langdata,
            resolvedSome (detectResolve rules mode p.1 p.2 t) = true))).length : ℚ) /
          ((prepareText text).length : ℚ) := by
        unfold pyDiv at hequ
        rw [if_neg hnq] at hequ
        cases hequ
        rw [← hcard]
        field_simp
      have hunkbounds : 0 ≤ unk ∧ unk ≤ 1 := by
        unfold pyDiv at hequ
        rw [if_neg hnq] at hequ
        cases hequ
        constructor
        · apply div_nonneg _ (le_of_lt hnpos)
          linarith
        · rw [div_le_one hnpos]
          have : (0 : ℚ) ≤ (found.card : ℚ) := by positivity
          linarith
      have hall : ∀ p ∈ dictSet myresults "unk" unk, 0 ≤ p.2 ∧ p.2 ≤ 1 :=
        dictSet_forall (fun q => 0 ≤ q ∧ q ≤ 1) myresults "unk" unk
          (hspec.1 (by simp)) hunkbounds
      refine ⟨?_, ?_, ?_, ?_⟩
      · intro p hp
        rw [List.mem_insertionSort] at hp
        exact hall p hp
      · haveI hTot : IsTotal (String × ℚ) (fun a b => b.2 ≤ a.2) :=
          ⟨fun a b => le_total b.2 a.2⟩
        haveI hTrans : IsTrans (String × ℚ) (fun a b => b.2 ≤ a.2) :=
          ⟨fun a b c h1 h2 => le_trans h2 h1⟩
        exact List.sorted_insertionSort _ _
      · intro p hp
        obtain ⟨q, hq⟩ := hspec.2.2.1 p hp
        obtain ⟨q2, hq2⟩ := dictSet_mem_keys myresults p.1 "unk" unk ⟨q, hq⟩
        exact ⟨q2, (List.mem_insertionSort _).mpr hq2⟩
      · rw [← hunkval, List.mem_insertionSort]
        exact dictSet_mem_self myresults "unk" unk

/-- Claim C7 (amended): Whenever `lang_detector` completes without raising
(with a non-empty sampled token set), its result carries a score in
`[0, 1]` for every entry, contains an entry for each configured language,
is sorted by score in descending order, and contains an `unk` entry equal
to `1` minus the fraction of sampled tokens matched by at least one
configured language under the resolution mode actually used (fast, or
extensive after a tie rerun). -/
theorem claim_C7_detector_result (rules : Str → String → Option Str)
    (text : Str) (langdata : List (String × Table)) (extensive : Bool)
    (res : List (String × ℚ))
    (htok : prepareText text ≠ [])
    (hok : langDetector rules text langdata extensive = .ok res) :
    (∀ p ∈ res, 0 ≤ p.2 ∧ p.2 ≤ 1) ∧
    List.Sorted (fun a b : String × ℚ => b.2 ≤ a.2) res ∧
    (∀ p ∈ langdata, ∃ q : ℚ, (p.1, q) ∈ res) ∧
    (∃ mode : Bool, ("unk", 1 -
      (((prepareText text).filter (fun t => decide (∃ p ∈ langdata,
        resolvedSome (detectResolve rules mode p.1 p.2 t) = true))).length : ℚ) /
      ((prepareText text).length : ℚ)) ∈ res) := by
  cases extensive with
  | true =>
      have h := langDetectorPass_ok_spec rules text langdata true res htok
        (show langDetectorPass rules text langdata true = .ok res from hok)
      exact ⟨h.1, h.2.1, h.2.2.1, true, h.2.2.2⟩
  | false =>
      have hok2 : (match langDetectorPass rules text langdata false with
          | .error e => (.error e : Except PyErr (List (String × ℚ)))
          | .ok results =>
              match results with
              | r0 :: r1 :: _ =>
                  if r0.2 = r1.2 then langDetectorPass rules text langdata true
                  else .ok results
              | _ => .error .indexError) = .ok res := hok
      split at hok2
      · cases hok2
      · rename_i results heq
        split at hok2
        · rename_i r0 r1 tl
          split at hok2
          · have h := langDetectorPass_ok_spec rules text langdata true res htok hok2
            exact ⟨h.1, h.2.1, h.2.2.1, true, h.2.2.2⟩
          · cases hok2
            have h := langDetectorPass_ok_spec rules text langdata false
              (r0 :: r1 :: tl) htok heq
            exact ⟨h.1, h.2.1, h.2.2.1, false, h.2.2.2⟩
        · cases hok2

theorem claim_C7_witness :
    prepareText ['a', 'b', 'c'] ≠ [] ∧
    ((∀ p ∈ [(("aa" : String), (1 : ℚ)), ("unk", 0)], 0 ≤ p.2 ∧ p.2 ≤ 1) ∧
      List.Sorted (fun a b : String × ℚ => b.2 ≤ a.2)
        [(("aa" : String), (1 : ℚ)), ("unk", 0)] ∧
      (∀ p ∈ [(("aa" : String), ([(['a', 'b', 'c'], ['x'])] : Table))],
        ∃ q : ℚ, (p.1, q) ∈ [(("aa" : String), (1 : ℚ)), ("unk", 0)]) ∧
      (∃ mode : Bool, ("unk", 1 -
        (((prepareText ['a', 'b', 'c']).filter (fun t => decide
          (∃ p ∈ [(("aa" : String), ([(['a', 'b', 'c'], ['x'])] : Table))],
            resolvedSome (detectResolve (fun _ _ => none) mode p.1 p.2 t) = true))).length : ℚ) /
        ((prepareText ['a', 'b', 'c']).length : ℚ)) ∈
          [(("aa" : String), (1 : ℚ)), ("unk", 0)])) :=
  ⟨by decide,
    claim_C7_detector_result (fun _ _ => none) ['a', 'b', 'c']
      [("aa", [(['a', 'b', 'c'], ['x'])])] false
      [("aa", 1), ("unk", 0)] (by decide)
      (by
        have h1 : prepareText ['a', 'b', 'c'] = [['a', 'b', 'c']] := by decide
        unfold langDetector langDetectorPass
        rw [h1]
        simp only [detectorLoop, inTargetLoop, detectResolve, simpleSearch,
          dictGet, pyHead, pyDiv, dictSet]
        norm_num)⟩

/-- Claim C7 counterexample: with no configured languages in fast mode the
sorted results hold only the `unk` entry, and the tie check `results[1]`
raises `IndexError` — `lang_detector` returns nothing, so the `unk` entry
is not "always present" in a result. -/
theorem claim_C7_counterexample :
    prepareText ['a', 'b', 'c'] ≠ [] ∧
    langDetector (fun _ _ => none) ['a', 'b', 'c'] [] false =
      .error .indexError := by
  refine ⟨by decide, ?_⟩
  have h1 : prepareText ['a', 'b', 'c'] = [['a', 'b', 'c']] := by decide
  unfold langDetector langDetectorPass
  rw [h1]
  simp only [detectorLoop, pyDiv, dictSet]
  norm_num
